import Mathlib

/-!
Verification of the `qdk_chemistry` geometry / solver-input-deck code
(`qdk_chemistry/geometry/geometry.py`, `geometry/xyz.py`,
`solvers/nwchem.py`, `solvers/openmolcas.py`).

Modelling conventions:

* Python strings are Lean `String`s; `"\n".join(...)` is `joinNL`.
* A Python `float` is modelled by its shortest-repr decimal literal
  (a `String`).  All claims under scrutiny concern coordinates whose
  `repr` is a fixed-point literal such as `0.7414`; on those,
  `float(s)` followed by f-string formatting is the identity, so the
  parse / format pipeline acts on the literals directly.
* `re.findall(XYZ_PATTERN, text)` is modelled by an explicit scanner
  `findall`.  For this particular pattern (`(\w) F F F` with
  `F = ([+-]?[0-9]*[.][0-9]+)`) Python's backtracking engine is
  equivalent to maximal-munch matching, because every greedy
  sub-pattern (`[0-9]*`, `[0-9]+`) is followed by a character
  (`.`, a space, or the end of the pattern) that the sub-pattern
  itself can never match; the scanner advances one character on
  failure and past the match on success, exactly like `findall`
  on a pattern that cannot match the empty string.
* `\w` is modelled on its ASCII fragment (letters, digits, `_`),
  which covers every symbol the source and spec mention.
-/

/-- ASCII fragment of Python's `\w` character class. -/
def isWordChar (c : Char) : Bool :=
  c.isAlphanum || c == '_'

/-- Leading `[+-]?` of `FLOAT_PATTERN`: split an optional sign
character off the front of the input. -/
def splitSign : List Char → List Char × List Char
  | [] => ([], [])
  | c :: cs => if c == '+' || c == '-' then ([c], cs) else ([], c :: cs)

/-- Expect the literal character `c` at the head of the input and
consume it. -/
def expectChar (c : Char) : List Char → Option (List Char)
  | [] => none
  | c0 :: r => if c0 = c then some r else none

/-- Match `FLOAT_PATTERN = "([+-]?[0-9]*[.][0-9]+)"` at the head of the
input; return the captured characters and the remaining input.
Maximal munch on the digit runs coincides with the regex's greedy
matching (see module docstring). -/
def matchFloat (l : List Char) : Option (List Char × List Char) :=
  (expectChar '.' ((splitSign l).2.dropWhile Char.isDigit)).bind fun l3 =>
    if (l3.takeWhile Char.isDigit).isEmpty then none
    else
      some ((splitSign l).1 ++ (splitSign l).2.takeWhile Char.isDigit
          ++ '.' :: l3.takeWhile Char.isDigit,
        l3.dropWhile Char.isDigit)

/-- One capture tuple of `XYZ_PATTERN`: symbol, x, y, z. -/
def XyzGroup := String × String × String × String

instance : DecidableEq XyzGroup := by
  unfold XyzGroup
  infer_instance

/-- Try to match `XYZ_PATTERN = "(\w) F F F"` starting at a position
whose first character is `c` and whose remaining input is `cs`;
return the four capture groups and the input following the match. -/
def matchAt (c : Char) (cs : List Char) : Option (XyzGroup × List Char) :=
  if isWordChar c then
    (expectChar ' ' cs).bind fun r1 =>
      (matchFloat r1).bind fun px =>
        (expectChar ' ' px.2).bind fun r3 =>
          (matchFloat r3).bind fun py =>
            (expectChar ' ' py.2).bind fun r5 =>
              (matchFloat r5).bind fun pz =>
                some ((⟨[c]⟩, ⟨px.1⟩, ⟨py.1⟩, ⟨pz.1⟩), pz.2)
  else none

/-- Fuelled scanning loop of `re.findall`: at each position try
`matchAt`; on success record the groups and resume after the match,
on failure advance one character. -/
def findallGo : Nat → List Char → List XyzGroup
  | 0, _ => []
  | _ + 1, [] => []
  | n + 1, c :: cs =>
    match matchAt c cs with
    | some (g, rest) => g :: findallGo n rest
    | none => findallGo n cs

/-- The scan `re.findall(XYZ_PATTERN, ·)` over a character list. -/
def findall (l : List Char) : List XyzGroup :=
  findallGo l.length l

/-- Class `Element` of `geometry.py`: an atom symbol and three coordinates
(coordinates as decimal literals, see module docstring). -/
structure Element where
  name : String
  x : String
  y : String
  z : String
deriving DecidableEq

/-- Constructor `Element.from_tuple`; the `float()` conversion of the coordinate
captures is the identity on the literals in our model. -/
def Element.from_tuple (v : XyzGroup) : Element :=
  ⟨v.1, v.2.1, v.2.2.1, v.2.2.2⟩

/-- Class `Geometry` of `geometry.py`: a list of elements plus a molecular
charge that may be unset (`None`). -/
structure Geometry where
  elems : List Element
  charge : Option Int
deriving DecidableEq

/-- Property `Geometry.coordinates`: the list of `(name, x, y, z)` tuples. -/
def Geometry.coordinates (g : Geometry) : List XyzGroup :=
  g.elems.map fun e => (e.name, e.x, e.y, e.z)

/-- Parser `Geometry.from_xyz`: `re.findall(XYZ_PATTERN, xyz)` mapped through
`Element.from_tuple`; the charge is left unset. -/
def Geometry.from_xyz (xyz : String) : Geometry :=
  ⟨(findall xyz.data).map Element.from_tuple, none⟩

/-- Re-apply a charge to a geometry (the spec's "charge re-applied"
step after parsing). -/
def Geometry.withCharge (g : Geometry) (c : Option Int) : Geometry :=
  ⟨g.elems, c⟩

/-- Python `"\n".join(...)`. -/
def joinNL : List String → String
  | [] => ""
  | [a] => a
  | a :: b :: r => a ++ "\n" ++ joinNL (b :: r)

/-- Python truthiness of `charge != 0` when `charge` may be `None`:
`None != 0` evaluates to `True`. -/
def pyNeZero : Option Int → Bool
  | none => true
  | some c => c != 0

/-- Python f-string rendering of a value that may be `None`. -/
def pyStr : Option Int → String
  | none => "None"
  | some c => toString c

/-- Function `element_to_xyz` of `xyz.py`, the f-string of name, x, y, z. -/
def element_to_xyz (name x y z : String) : String :=
  name ++ " " ++ x ++ " " ++ y ++ " " ++ z

/-- The three lines of the charge-setting block for a given charge. -/
def chargeBlockLines (c : Option Int) : List String :=
  ["$set", "chrg " ++ pyStr c, "$end"]

/-- Function `coordinates_to_xyz` of `xyz.py`: atom count, `"title"`, one atom
line per coordinate tuple with a trailing space, then — when
`charge != 0` in the Python sense — the `$set` / `chrg` / `$end`
block; all joined with `"\n"`. -/
def coordinates_to_xyz (number_of_atoms : Nat) (charge : Option Int)
    (coordinates : List XyzGroup) : String :=
  joinNL
    ([toString number_of_atoms, "title"]
      ++ coordinates.map (fun v => element_to_xyz v.1 v.2.1 v.2.2.1 v.2.2.2 ++ " ")
      ++ if pyNeZero charge then chargeBlockLines charge else [])

/-- Serializer `Geometry.to_xyz`. -/
def Geometry.to_xyz (g : Geometry) : String :=
  coordinates_to_xyz g.elems.length g.charge g.coordinates

/-- Python `str.split("\n")` over a character list. -/
def splitNL : List Char → List (List Char)
  | [] => [[]]
  | c :: r =>
    if c = '\n' then [] :: splitNL r
    else
      match splitNL r with
      | h :: t => (c :: h) :: t
      | [] => [[c]]

/-- The lines of a string, as Python's `s.split("\n")`. -/
def pyLines (s : String) : List String :=
  (splitNL s.data).map fun l => ⟨l⟩

/-- A line consisting only of whitespace (or empty). -/
def isBlankLine (s : String) : Bool :=
  s.data.all Char.isWhitespace

/-- First non-blank line of a string, if any. -/
def firstNonBlankLine (s : String) : Option String :=
  (pyLines s).find? fun l => !isBlankLine l

/-- Boolean list-prefix test. -/
def isPrefixOfB : List String → List String → Bool
  | [], _ => true
  | _ :: _, [] => false
  | a :: as, b :: bs => a == b && isPrefixOfB as bs

/-- Boolean contiguous-sublist test. -/
def isInfixOfB (p : List String) (l : List String) : Bool :=
  isPrefixOfB p l ||
    match l with
    | [] => false
    | _ :: t => isInfixOfB p t

/-- The output of `to_xyz()` contains the three-line
`$set` / `chrg <charge>` / `$end` block (as three consecutive lines). -/
def chargeBlockPresent (g : Geometry) : Bool :=
  isInfixOfB (chargeBlockLines g.charge) (pyLines g.to_xyz)

/-!
### NWChem deck generator (`solvers/nwchem.py`)

The external collaborator `num_electrons` lives in
`qdk_chemistry.convert`, which is not under `src/`; per the spec it is
a pure function `num_electrons(mol) -> int`, so a molecule handle is
identified with the electron count it reports.  `warnings.warn` is
modelled by returning the list of warning messages alongside the deck;
`raise ValueError` by `Except.error`.  The two `{...:.1e}`-formatted
float thresholds are carried as their rendered strings (their textual
form is all the template uses, and no claim depends on them).
-/

/-- Modelled from the spec: the electron-counting collaborator
`num_electrons(mol) -> int` of `qdk_chemistry.convert` (not under
`src/`); a molecule handle is identified with its electron count. -/
def num_electrons (mol : Int) : Int := mol

/-- Keyword arguments of `create_input_deck`, in source order. -/
structure NWParams where
  mol_name : String
  geometry : String
  num_active_orbitals : Int
  memory : String
  geometry_units : String
  basis : String
  charge : Int
  scf_thresh : String
  scf_tol2e : String
  rhf : String
  spin : String
  nopen : Option Int
  method : String
  num_tce_root : Int
  tce_thresh : String
  driver : String
  mol : Option Int
  num_active_el : Option Int

/-- Template `NW_CHEM_TEMPLATE`, line by line, with every placeholder a
function argument (the template string begins and ends with a newline,
hence the leading and trailing empty lines). -/
def NW_CHEM_TEMPLATE (name memory geometry_units geometry basis charge
    scf_thresh scf_tol2e rhf spin nopen method num_tce_root tce_thresh
    num_orb num_el_a num_el_b driver : String) : List String :=
  [ ""
  , "start " ++ name
  , ""
  , "echo"
  , memory
  , ""
  , "geometry units " ++ geometry_units
  , "symmetry c1"
  , geometry
  , "end"
  , ""
  , "basis"
  , "* library " ++ basis
  , "end"
  , ""
  , "charge " ++ charge
  , ""
  , "scf"
  , "thresh " ++ scf_thresh
  , "tol2e " ++ scf_tol2e
  , rhf
  , spin
  , nopen
  , "end"
  , ""
  , "tce"
  , method
  , "tilesize 1"
  , "2eorb"
  , "2emet 13"
  , "nroots " ++ num_tce_root
  , "thresh " ++ tce_thresh
  , "end"
  , ""
  , "set tce:print_integrals T"
  , "set tce:qorb " ++ num_orb
  , "set tce:qela " ++ num_el_a
  , "set tce:qelb " ++ num_el_b
  , ""
  , "task tce " ++ driver
  , "" ]

/-- The electron-count resolution at the top of `create_input_deck`:
`if mol is not None and num_active_el is None: num_active_el =
num_electrons(mol)`, `elif` both `None`: `raise ValueError(...)`,
`else: warnings.warn(...)`.  Returns the resolved count and the
warnings emitted. -/
def resolve_num_active_el :
    Option Int → Option Int → Except String (Int × List String)
  | some m, none => .ok (num_electrons m, [])
  | none, none =>
    .error "Cannot proceed: please provide either a Mol object or specify number of electrons"
  | _, some e =>
    .ok (e, ["Ignoring mol and using specified number of active electrons (num_active_el) instead."])

/-- The fully rendered template for a resolved electron count `e`:
`NW_CHEM_TEMPLATE.format(...)` with `name=f"{mol_name}_test"`,
`num_el_a=num_el_b=num_active_el//2` (Python floor division →
`Int.fdiv`), and `nopen` rendered as `f"nopen {nopen}"` or `""`. -/
def renderDeck (p : NWParams) (e : Int) : String :=
  joinNL (NW_CHEM_TEMPLATE
    (p.mol_name ++ "_test") p.memory p.geometry_units p.geometry p.basis
    (toString p.charge) p.scf_thresh p.scf_tol2e p.rhf p.spin
    (match p.nopen with
     | some v => "nopen " ++ toString v
     | none => "")
    p.method (toString p.num_tce_root) p.tce_thresh
    (toString p.num_active_orbitals)
    (toString (Int.fdiv e 2)) (toString (Int.fdiv e 2)) p.driver)

/-- Function `create_input_deck` of `nwchem.py`: resolve the electron count
(possibly failing, possibly warning), then render the template.
Returns the deck text together with the warnings emitted. -/
def create_input_deck (p : NWParams) : Except String (String × List String) :=
  match resolve_num_active_el p.mol p.num_active_el with
  | .error msg => .error msg
  | .ok (e, ws) => .ok (renderDeck p e, ws)

/-!
### OpenMolcas helper (`solvers/openmolcas.py`)

`format_geometry` evaluates `"\n".join(el.to_xyz() for el in
geometry)`.  `Element` (in `geometry.py`) defines no `to_xyz` method —
only `Geometry` does — so the attribute lookup `el.to_xyz` raises
`AttributeError` for every element; the join only raises once the
generator produces its first item, so the empty geometry still yields
`""`.
-/

/-- The attribute lookup `el.to_xyz` on an `Element`: always an
`AttributeError`, since `Element` has no such method. -/
def Element.getattr_to_xyz (_ : Element) : Except String String :=
  .error "AttributeError: Element object has no attribute to_xyz"

/-- Function `format_geometry` of `openmolcas.py`. -/
def format_geometry (geometry : Geometry) : Except String String :=
  (geometry.elems.mapM Element.getattr_to_xyz).map joinNL

/-!
### Well-formedness predicates and helpers used by the theorems
-/

/-- The shape of a string fully matching `FLOAT_PATTERN`: an optional
sign, a (possibly empty) run of digits, a dot, and a nonempty run of
digits. -/
def FloatChars (l : List Char) : Prop :=
  ∃ sgn ds fs,
    (sgn = [] ∨ sgn = ['+'] ∨ sgn = ['-']) ∧
    (∀ c ∈ ds, c.isDigit = true) ∧
    fs ≠ [] ∧ (∀ c ∈ fs, c.isDigit = true) ∧
    l = sgn ++ ds ++ '.' :: fs

/-- An element the XYZ round trip can be faithful on: a
single-word-character symbol and coordinates that are fixed-point
decimal literals (the exactly-representable regime of the claims). -/
def GoodElement (e : Element) : Prop :=
  (∃ a, isWordChar a = true ∧ e.name = ⟨[a]⟩) ∧
    FloatChars e.x.data ∧ FloatChars e.y.data ∧ FloatChars e.z.data

/-- The atom line emitted by `coordinates_to_xyz` for one element
(note the trailing space). -/
def atomLine (e : Element) : String :=
  element_to_xyz e.name e.x e.y e.z ++ " "

/-- The tail of a join: newline, line, newline, line, and so on. -/
def joinTail : List String → String
  | [] => ""
  | s :: r => "\n" ++ s ++ joinTail r

/-- A concrete argument bundle for `create_input_deck` (the Python
defaults, with the two `{...:.1e}` thresholds carried in rendered
form), parameterized over the electron-count sources. -/
def testParams (mol num_active_el : Option Int) : NWParams :=
  ⟨"water", "H 0.0 0.0 0.0", 4,
    "memory stack 1000 mb heap 100 mb global 1000 mb noverify",
    "au", "sto-3g", 0, "1.0e-10", "1e-10", "rhf", "singlet", none,
    "ccsd", 5, "1.0e-06", "energy", mol, num_active_el⟩

/-! ### Character-class facts -/

theorem isWordChar_of_isDigit {c : Char} (h : c.isDigit = true) :
    isWordChar c = true := by
  simp [isWordChar, Char.isAlphanum, h]

theorem ne_of_isDigit {c : Char} (h : c.isDigit = true) :
    c ≠ '+' ∧ c ≠ '-' ∧ c ≠ '.' ∧ c ≠ '\n' ∧ c ≠ ' ' := by
  refine ⟨?_, ?_, ?_, ?_, ?_⟩ <;> rintro rfl <;> simp [Char.isDigit] at h

theorem ne_space_of_isWordChar {c : Char} (h : isWordChar c = true) :
    c ≠ ' ' := by
  rintro rfl
  simp [isWordChar] at h

theorem ne_nl_of_isWordChar {c : Char} (h : isWordChar c = true) :
    c ≠ '\n' := by
  rintro rfl
  simp [isWordChar] at h

/-! ### Length bounds and step equations for the scanner -/

theorem expectChar_eq {c : Char} {l r : List Char}
    (h : expectChar c l = some r) : l = c :: r := by
  cases l with
  | nil => simp [expectChar] at h
  | cons c0 t =>
    simp only [expectChar] at h
    split at h
    · rename_i hc
      cases h
      exact hc ▸ rfl
    · cases h

theorem splitSign_snd_length (l : List Char) :
    (splitSign l).2.length ≤ l.length := by
  cases l with
  | nil => simp [splitSign]
  | cons c cs =>
    simp only [splitSign]
    split <;> simp

theorem length_dropWhile_le (p : Char → Bool) (l : List Char) :
    (l.dropWhile p).length ≤ l.length := by
  induction l with
  | nil => simp
  | cons c cs ih =>
    by_cases h : p c
    · simp only [List.dropWhile_cons_of_pos h]
      exact Nat.le_succ_of_le ih
    · simp [List.dropWhile_cons_of_neg h]

theorem matchFloat_length {l cap rest : List Char}
    (h : matchFloat l = some (cap, rest)) : rest.length ≤ l.length := by
  unfold matchFloat at h
  cases he : expectChar '.' ((splitSign l).2.dropWhile Char.isDigit) with
  | none => rw [he] at h; cases h
  | some l3 =>
    rw [he] at h
    simp only [Option.some_bind] at h
    split at h
    · cases h
    · simp only [Option.some.injEq, Prod.mk.injEq] at h
      have h1 : rest.length ≤ l3.length := by
        rw [← h.2]
        exact length_dropWhile_le Char.isDigit l3
      have h2 : ((splitSign l).2.dropWhile Char.isDigit).length = l3.length + 1 := by
        rw [expectChar_eq he]
        simp
      have h3 := length_dropWhile_le Char.isDigit (splitSign l).2
      have h4 := splitSign_snd_length l
      omega

theorem matchAt_length {c : Char} {cs : List Char} {g : XyzGroup}
    {rest : List Char} (h : matchAt c cs = some (g, rest)) :
    rest.length ≤ cs.length := by
  unfold matchAt at h
  split at h
  · cases he1 : expectChar ' ' cs with
    | none => rw [he1] at h; cases h
    | some r1 =>
      rw [he1] at h
      simp only [Option.some_bind] at h
      cases hf1 : matchFloat r1 with
      | none => rw [hf1] at h; cases h
      | some px =>
        rw [hf1] at h
        simp only [Option.some_bind] at h
        cases he2 : expectChar ' ' px.2 with
        | none => rw [he2] at h; cases h
        | some r3 =>
          rw [he2] at h
          simp only [Option.some_bind] at h
          cases hf2 : matchFloat r3 with
          | none => rw [hf2] at h; cases h
          | some py =>
            rw [hf2] at h
            simp only [Option.some_bind] at h
            cases he3 : expectChar ' ' py.2 with
            | none => rw [he3] at h; cases h
            | some r5 =>
              rw [he3] at h
              simp only [Option.some_bind] at h
              cases hf3 : matchFloat r5 with
              | none => rw [hf3] at h; cases h
              | some pz =>
                rw [hf3] at h
                simp only [Option.some_bind, Option.some.injEq, Prod.mk.injEq] at h
                have e1 : cs.length = r1.length + 1 := by rw [expectChar_eq he1]; simp
                have b1 : px.2.length ≤ r1.length := matchFloat_length (by
                  rw [hf1])
                have e2 : px.2.length = r3.length + 1 := by rw [expectChar_eq he2]; simp
                have b2 : py.2.length ≤ r3.length := matchFloat_length (by
                  rw [hf2])
                have e3 : py.2.length = r5.length + 1 := by rw [expectChar_eq he3]; simp
                have b3 : pz.2.length ≤ r5.length := matchFloat_length (by
                  rw [hf3])
                rw [← h.2]
                omega
  · cases h

theorem findallGo_congr : ∀ (n m : Nat) (l : List Char),
    l.length ≤ n → l.length ≤ m → findallGo n l = findallGo m l := by
  intro n
  induction n with
  | zero =>
    intro m l hn _
    have : l = [] := List.length_eq_zero.mp (Nat.le_zero.mp hn)
    subst this
    cases m <;> rfl
  | succ n ih =>
    intro m l hn hm
    cases l with
    | nil => cases m <;> rfl
    | cons c cs =>
      cases m with
      | zero => simp at hm
      | succ m' =>
        simp only [List.length_cons] at hn hm
        simp only [findallGo]
        cases hmt : matchAt c cs with
        | some p =>
          rcases p with ⟨g, rest⟩
          have hr : rest.length ≤ cs.length := matchAt_length hmt
          show g :: findallGo n rest = g :: findallGo m' rest
          rw [ih m' rest (by omega) (by omega)]
        | none =>
          show findallGo n cs = findallGo m' cs
          exact ih m' cs (by omega) (by omega)

theorem findall_cons_some {c : Char} {cs : List Char} {g : XyzGroup}
    {rest : List Char} (h : matchAt c cs = some (g, rest)) :
    findall (c :: cs) = g :: findall rest := by
  unfold findall
  simp only [List.length_cons, findallGo, h]
  rw [findallGo_congr cs.length rest.length rest (matchAt_length h) le_rfl]

theorem findall_cons_none {c : Char} {cs : List Char}
    (h : matchAt c cs = none) : findall (c :: cs) = findall cs := by
  unfold findall
  simp only [List.length_cons, findallGo, h]

theorem matchAt_none_of_nonword {c : Char} {cs : List Char}
    (h : isWordChar c = false) : matchAt c cs = none := by
  simp [matchAt, h]

theorem matchAt_none_of_head {c : Char} {cs : List Char}
    (h : cs.head? ≠ some ' ') : matchAt c cs = none := by
  unfold matchAt
  split
  · cases cs with
    | nil => rfl
    | cons c0 r =>
      have : c0 ≠ ' ' := by
        intro e
        exact h (by rw [e]; rfl)
      simp [expectChar, this]
  · rfl

theorem findall_skip_nonword {c : Char} {l : List Char}
    (h : isWordChar c = false) : findall (c :: l) = findall l :=
  findall_cons_none (matchAt_none_of_nonword h)

theorem findall_skip_head {c : Char} {l : List Char}
    (h : l.head? ≠ some ' ') : findall (c :: l) = findall l :=
  findall_cons_none (matchAt_none_of_head h)

/-- Scanning skips over a run of word characters that is not followed
by a space (no position inside it can start a match). -/
theorem findall_skip_run {ds r : List Char}
    (hds : ∀ c ∈ ds, isWordChar c = true) (hr : r.head? ≠ some ' ') :
    findall (ds ++ r) = findall r := by
  induction ds with
  | nil => rfl
  | cons d ds ih =>
    have htail : (ds ++ r).head? ≠ some ' ' := by
      cases ds with
      | nil => simpa using hr
      | cons d2 t =>
        have := ne_space_of_isWordChar (hds d2 (by simp))
        simpa using this
    rw [List.cons_append, findall_skip_head htail]
    exact ih fun c hc => hds c (by simp [hc])

/-! ### Exact matching of well-formed floats -/

theorem takeWhile_all_append {p : Char → Bool} {ds r : List Char}
    (h : ∀ c ∈ ds, p c = true) (hr : ∀ c, r.head? = some c → p c = false) :
    (ds ++ r).takeWhile p = ds ∧ (ds ++ r).dropWhile p = r := by
  induction ds with
  | nil =>
    cases r with
    | nil => simp
    | cons c t =>
      have := hr c rfl
      simp [List.takeWhile_cons, List.dropWhile_cons, this]
  | cons d ds ih =>
    have hd : p d = true := h d (by simp)
    have ⟨iht, ihd⟩ := ih fun c hc => h c (by simp [hc])
    simp [List.takeWhile_cons, List.dropWhile_cons, hd, iht, ihd]

theorem splitSign_no_sign {l : List Char}
    (h : ∀ c, l.head? = some c → (c = '+' ∨ c = '-') → False) :
    splitSign l = ([], l) := by
  cases l with
  | nil => rfl
  | cons c cs =>
    have : (c == '+' || c == '-') = false := by
      rcases hc : (c == '+' || c == '-') with _ | _
      · rfl
      · exfalso
        apply h c rfl
        rcases Bool.or_eq_true_iff.mp hc with h1 | h1
        · exact Or.inl (by simpa using h1)
        · exact Or.inr (by simpa using h1)
    simp [splitSign, this]

theorem matchFloat_exact {x r : List Char} (hx : FloatChars x)
    (hr : ∀ c, r.head? = some c → c.isDigit = false) :
    matchFloat (x ++ r) = some (x, r) := by
  obtain ⟨sgn, ds, fs, hsgn, hds, hfsne, hfs, rfl⟩ := hx
  have hdot : ∀ c, (('.' :: fs) ++ r).head? = some c → c.isDigit = false := by
    intro c hc
    simp at hc
    rw [← hc]
    simp [Char.isDigit]
  have hsplit :
      splitSign ((sgn ++ ds ++ '.' :: fs) ++ r)
        = (sgn, ds ++ ('.' :: fs ++ r)) := by
    rcases hsgn with rfl | rfl | rfl
    · simp only [List.nil_append]
      rw [splitSign_no_sign]
      · simp
      · intro c hc hpm
        cases ds with
        | nil =>
          simp at hc
          rcases hpm with rfl | rfl <;> simp_all
        | cons d t =>
          simp at hc
          have := ne_of_isDigit (hds d (by simp))
          rcases hpm with rfl | rfl <;> simp_all
    · simp [splitSign]
    · simp [splitSign]
  have hspan := takeWhile_all_append (p := Char.isDigit) (r := '.' :: (fs ++ r))
    hds (by intro c hc; simp at hc; rw [← hc]; simp [Char.isDigit])
  have hspan2 := takeWhile_all_append (p := Char.isDigit) (r := r) hfs hr
  unfold matchFloat
  rw [hsplit]
  simp only [List.cons_append] at hspan
  rw [show ds ++ ('.' :: fs ++ r) = ds ++ '.' :: (fs ++ r) by simp]
  rw [hspan.2, hspan.1]
  have hempty : fs.isEmpty = false := by
    cases fs with
    | nil => exact absurd rfl hfsne
    | cons a b => rfl
  simp [expectChar, hspan2.1, hspan2.2, hempty]
  cases fs with
  | nil => exact absurd rfl hfsne
  | cons f ft =>
    exact ⟨Or.inl (by simp), by simpa using hfs f (by simp)⟩

/-- An integer rendering (optional minus sign, digits) followed by a
newline is not a float: there is no decimal point where the pattern
requires one. -/
theorem matchFloat_none_int {sgn ds t : List Char}
    (hsgn : sgn = [] ∨ sgn = ['-']) (hds : ∀ c ∈ ds, c.isDigit = true) :
    matchFloat (sgn ++ ds ++ '\n' :: t) = none := by
  have hspan := takeWhile_all_append (p := Char.isDigit) (r := '\n' :: t) hds
    (by intro c hc; simp at hc; rw [← hc]; simp [Char.isDigit])
  have hsplit : splitSign (sgn ++ ds ++ '\n' :: t) = (sgn, ds ++ '\n' :: t) := by
    rcases hsgn with rfl | rfl
    · simp only [List.nil_append]
      rw [splitSign_no_sign]
      intro c hc hpm
      cases ds with
      | nil =>
        simp at hc
        rcases hpm with rfl | rfl <;> simp_all
      | cons d dt =>
        simp at hc
        have := ne_of_isDigit (hds d (by simp))
        rcases hpm with rfl | rfl <;> simp_all
    · simp [splitSign]
  unfold matchFloat
  rw [hsplit]
  simp only []
  rw [hspan.2]
  simp [expectChar]

/-- A full `XYZ_PATTERN` match at a word character followed by
`x`, `y`, `z` floats: the four groups are captured and the input
after the third float remains. -/
theorem matchAt_atom {a : Char} {x y z r : List Char}
    (ha : isWordChar a = true) (hx : FloatChars x) (hy : FloatChars y)
    (hz : FloatChars z)
    (hr : ∀ c, r.head? = some c → c.isDigit = false) :
    matchAt a (' ' :: (x ++ ' ' :: (y ++ ' ' :: (z ++ r))))
      = some ((⟨[a]⟩, ⟨x⟩, ⟨y⟩, ⟨z⟩), r) := by
  have hsp : ∀ (t : List Char), ∀ c, (' ' :: t).head? = some c → c.isDigit = false := by
    intro t c hc
    simp at hc
    rw [← hc]
    simp [Char.isDigit]
  have f1 : matchFloat (x ++ ' ' :: (y ++ ' ' :: (z ++ r)))
      = some (x, ' ' :: (y ++ ' ' :: (z ++ r))) := matchFloat_exact hx (hsp _)
  have f2 : matchFloat (y ++ ' ' :: (z ++ r)) = some (y, ' ' :: (z ++ r)) :=
    matchFloat_exact hy (hsp _)
  have f3 : matchFloat (z ++ r) = some (z, r) := matchFloat_exact hz hr
  unfold matchAt
  rw [if_pos ha]
  simp [expectChar, f1, f2, f3]

/-- Scanning an atom record consumes it wholly and captures its four
groups, then continues after the third float. -/
theorem findall_atom {a : Char} {x y z r : List Char}
    (ha : isWordChar a = true) (hx : FloatChars x) (hy : FloatChars y)
    (hz : FloatChars z)
    (hr : ∀ c, r.head? = some c → c.isDigit = false) :
    findall (a :: ' ' :: (x ++ ' ' :: (y ++ ' ' :: (z ++ r))))
      = (⟨[a]⟩, ⟨x⟩, ⟨y⟩, ⟨z⟩) :: findall r :=
  findall_cons_some (matchAt_atom ha hx hy hz hr)

/-! ### Decimal renderings of `Nat` and `Int` -/

theorem digitChar_isDigit {n : Nat} (h : n < 10) :
    (Nat.digitChar n).isDigit = true := by
  interval_cases n <;> decide

theorem toDigitsCore_digits (f : Nat) :
    ∀ (n : Nat) (ds : List Char), (∀ c ∈ ds, c.isDigit = true) →
      ∀ c ∈ Nat.toDigitsCore 10 f n ds, c.isDigit = true := by
  induction f with
  | zero =>
    intro n ds h c hc
    exact h c hc
  | succ f ih =>
    intro n ds h c hc
    have hd : (Nat.digitChar (n % 10)).isDigit = true :=
      digitChar_isDigit (Nat.mod_lt _ (by norm_num))
    have hcons : ∀ c ∈ Nat.digitChar (n % 10) :: ds, c.isDigit = true := by
      intro c hc
      rcases List.mem_cons.mp hc with rfl | hmem
      · exact hd
      · exact h c hmem
    simp only [Nat.toDigitsCore] at hc
    split at hc
    · exact hcons c hc
    · exact ih _ _ hcons c hc

theorem toDigitsCore_ne_nil (f : Nat) :
    ∀ (n : Nat) (ds : List Char), ds ≠ [] →
      Nat.toDigitsCore 10 f n ds ≠ [] := by
  induction f with
  | zero =>
    intro n ds h
    exact h
  | succ f ih =>
    intro n ds h
    simp only [Nat.toDigitsCore]
    split
    · simp
    · exact ih _ _ (by simp)

theorem natRepr_digits (n : Nat) : ∀ c ∈ (Nat.repr n).data, c.isDigit = true := by
  intro c hc
  have hd : (Nat.repr n).data = Nat.toDigits 10 n := rfl
  rw [hd] at hc
  unfold Nat.toDigits at hc
  exact toDigitsCore_digits (n + 1) n [] (by simp) c hc

theorem natRepr_ne_nil (n : Nat) : (Nat.repr n).data ≠ [] := by
  have hd : (Nat.repr n).data = Nat.toDigits 10 n := rfl
  rw [hd]
  unfold Nat.toDigits
  simp only [Nat.toDigitsCore]
  split
  · simp
  · exact toDigitsCore_ne_nil n (n / 10) _ (by simp)

theorem intRepr_shape (i : Int) :
    ∃ sgn ds, (sgn = [] ∨ sgn = ['-']) ∧ ds ≠ [] ∧
      (∀ c ∈ ds, c.isDigit = true) ∧ (toString i).data = sgn ++ ds := by
  cases i with
  | ofNat m =>
    refine ⟨[], (Nat.repr m).data, Or.inl rfl, natRepr_ne_nil m,
      natRepr_digits m, ?_⟩
    simp [toString]
  | negSucc m =>
    refine ⟨['-'], (Nat.repr (m + 1)).data, Or.inr rfl, natRepr_ne_nil _,
      natRepr_digits _, ?_⟩
    show ("-" ++ Nat.repr (m + 1)).data = '-' :: (Nat.repr (m + 1)).data
    simp

/-! ### `"\n".join` structure -/

theorem strApp_assoc (a b c : String) : a ++ b ++ c = a ++ (b ++ c) := by
  apply String.ext
  simp

theorem joinNL_cons_joinTail (l : List String) (a : String) :
    joinNL (a :: l) = a ++ joinTail l := by
  induction l generalizing a with
  | nil =>
    show a = a ++ ""
    apply String.ext
    simp
  | cons b r ih =>
    show a ++ "\n" ++ joinNL (b :: r) = a ++ ("\n" ++ b ++ joinTail r)
    rw [ih b]
    apply String.ext
    simp

theorem joinTail_append (l1 l2 : List String) :
    joinTail (l1 ++ l2) = joinTail l1 ++ joinTail l2 := by
  induction l1 with
  | nil =>
    show joinTail l2 = "" ++ joinTail l2
    apply String.ext
    simp
  | cons a r ih =>
    show "\n" ++ a ++ joinTail (r ++ l2) = "\n" ++ a ++ joinTail r ++ joinTail l2
    rw [ih]
    apply String.ext
    simp

theorem joinTail_head (l : List String) :
    (joinTail l).data = [] ∨ ∃ t, (joinTail l).data = '\n' :: t := by
  cases l with
  | nil => exact Or.inl rfl
  | cons a r =>
    right
    refine ⟨a.data ++ (joinTail r).data, ?_⟩
    show ("\n" ++ a ++ joinTail r).data = '\n' :: (a.data ++ (joinTail r).data)
    simp

/-! ### Scanning the serialized geometry -/

theorem matchAt_none_of_float {c : Char} {r1 : List Char}
    (h : matchFloat r1 = none) : matchAt c (' ' :: r1) = none := by
  unfold matchAt
  split
  · simp [expectChar, h]
  · rfl

/-- The trailing charge block contributes no matches to the scan. -/
theorem findall_chargeTail (c : Option Int) :
    findall (joinTail (chargeBlockLines c)).data = [] := by
  cases c with
  | none => decide
  | some i =>
    have hdata : (joinTail (chargeBlockLines (some i))).data
        = '\n' :: '$' :: 's' :: 'e' :: 't' :: '\n' :: 'c' :: 'h' :: 'r' :: 'g' :: ' '
            :: ((toString i).data ++ '\n' :: '$' :: 'e' :: 'n' :: 'd' :: []) := by
      show ("\n" ++ "$set" ++ ("\n" ++ ("chrg " ++ pyStr (some i)) ++ ("\n" ++ "$end" ++ ""))).data = _
      simp [pyStr]
    rw [hdata]
    obtain ⟨sgn, ds, hsgn, hdsne, hds, hrepr⟩ := intRepr_shape i
    rw [hrepr]
    rw [findall_skip_nonword (by decide)]
    rw [findall_skip_nonword (by decide)]
    rw [findall_skip_head (by simp)]
    rw [findall_skip_head (by simp)]
    rw [findall_skip_head (by simp)]
    rw [findall_skip_nonword (by decide)]
    rw [findall_skip_head (by simp)]
    rw [findall_skip_head (by simp)]
    rw [findall_skip_head (by simp)]
    have hfl : matchFloat (sgn ++ ds ++ '\n' :: '$' :: 'e' :: 'n' :: 'd' :: []) = none :=
      matchFloat_none_int hsgn hds
    rw [findall_cons_none (matchAt_none_of_float (by
      rw [show (sgn ++ ds) ++ '\n' :: '$' :: 'e' :: 'n' :: 'd' :: []
            = sgn ++ ds ++ '\n' :: '$' :: 'e' :: 'n' :: 'd' :: [] by simp]
      exact hfl))]
    rw [findall_skip_nonword (by decide)]
    have hsgnskip :
        findall (sgn ++ ds ++ '\n' :: '$' :: 'e' :: 'n' :: 'd' :: [])
          = findall (ds ++ '\n' :: '$' :: 'e' :: 'n' :: 'd' :: []) := by
      rcases hsgn with rfl | rfl
      · simp
      · show findall ('-' :: (ds ++ _)) = _
        rw [findall_skip_nonword (by decide)]
    rw [show (sgn ++ ds) ++ '\n' :: '$' :: 'e' :: 'n' :: 'd' :: []
          = sgn ++ ds ++ '\n' :: '$' :: 'e' :: 'n' :: 'd' :: [] by simp]
    rw [hsgnskip]
    rw [findall_skip_run (fun c hc => isWordChar_of_isDigit (hds c hc)) (by simp)]
    decide

/-- Scanning one serialized atom line (with its trailing space)
captures exactly that atom's groups and continues with what follows. -/
theorem findall_atomLine (e : Element) (T : List Char) (he : GoodElement e) :
    findall ((atomLine e).data ++ T)
      = (e.name, e.x, e.y, e.z) :: findall T := by
  obtain ⟨⟨a, ha, hname⟩, hx, hy, hz⟩ := he
  have hdata : (atomLine e).data ++ T
      = a :: ' ' :: (e.x.data ++ ' ' :: (e.y.data ++ ' ' :: (e.z.data ++ ' ' :: T))) := by
    show (element_to_xyz e.name e.x e.y e.z ++ " ").data ++ T = _
    rw [hname]
    show ((⟨[a]⟩ : String) ++ " " ++ e.x ++ " " ++ e.y ++ " " ++ e.z ++ " ").data ++ T = _
    simp
  rw [hdata]
  rw [findall_atom ha hx hy hz (by
    intro c hc
    simp at hc
    rw [← hc]
    simp [Char.isDigit])]
  rw [findall_skip_nonword (by decide)]
  rw [hname]

/-- Scanning the joined atom lines followed by the (possibly absent)
charge block yields exactly the atoms' capture groups, in order. -/
theorem findall_atomsTail (es : List Element) (cl : List String)
    (h : ∀ e ∈ es, GoodElement e) (hcl : findall (joinTail cl).data = []) :
    findall (joinTail (es.map atomLine ++ cl)).data
      = es.map fun e => (e.name, e.x, e.y, e.z) := by
  induction es with
  | nil => simpa using hcl
  | cons e es ih =>
    show findall (joinTail (atomLine e :: (es.map atomLine ++ cl))).data = _
    have hdata : (joinTail (atomLine e :: (es.map atomLine ++ cl))).data
        = '\n' :: ((atomLine e).data ++ (joinTail (es.map atomLine ++ cl)).data) := by
      show ("\n" ++ atomLine e ++ joinTail (es.map atomLine ++ cl)).data = _
      simp
    rw [hdata]
    rw [findall_skip_nonword (by decide)]
    rw [findall_atomLine e _ (h e (by simp))]
    rw [ih fun e' he' => h e' (by simp [he'])]
    rfl

/-- Scanning the full `to_xyz` output of a well-formed geometry yields
exactly the original atoms' capture groups. -/
theorem findall_toXyz (es : List Element) (c : Option Int)
    (h : ∀ e ∈ es, GoodElement e) :
    findall (Geometry.to_xyz ⟨es, c⟩).data
      = es.map fun e => (e.name, e.x, e.y, e.z) := by
  have hcoords :
      (Geometry.coordinates ⟨es, c⟩).map
          (fun v => element_to_xyz v.1 v.2.1 v.2.2.1 v.2.2.2 ++ " ")
        = es.map atomLine := by
    show (es.map fun e => (e.name, e.x, e.y, e.z)).map _ = _
    rw [List.map_map]
    rfl
  have hxyz : Geometry.to_xyz ⟨es, c⟩
      = toString es.length
        ++ ("\n" ++ "title"
            ++ joinTail (es.map atomLine
                ++ if pyNeZero c then chargeBlockLines c else [])) := by
    show coordinates_to_xyz es.length c (Geometry.coordinates ⟨es, c⟩) = _
    unfold coordinates_to_xyz
    rw [hcoords]
    show joinNL (toString es.length :: "title"
        :: (es.map atomLine ++ if pyNeZero c then chargeBlockLines c else [])) = _
    rw [joinNL_cons_joinTail]
    rfl
  rw [hxyz]
  have hcl : findall (joinTail (if pyNeZero c then chargeBlockLines c else [])).data = [] := by
    split
    · exact findall_chargeTail c
    · rfl
  have hT := joinTail_head (es.map atomLine ++ if pyNeZero c then chargeBlockLines c else [])
  have hdata :
      (toString es.length
          ++ ("\n" ++ "title"
              ++ joinTail (es.map atomLine
                  ++ if pyNeZero c then chargeBlockLines c else []))).data
        = (Nat.repr es.length).data
            ++ ('\n' :: ("title".data
              ++ (joinTail (es.map atomLine
                  ++ if pyNeZero c then chargeBlockLines c else [])).data)) := by
    simp [toString]
  rw [hdata]
  rw [findall_skip_run
    (fun ch hch => isWordChar_of_isDigit (natRepr_digits es.length ch hch))
    (by simp)]
  rw [findall_skip_nonword (by decide)]
  rw [findall_skip_run (by decide)
    (by
      rcases hT with h0 | ⟨t, ht⟩
      · rw [h0]
        simp
      · rw [ht]
        simp)]
  exact findall_atomsTail es _ h hcl

/-- A one-digit-dot-one-digit literal is a well-formed float. -/
theorem floatChars_simple {d f : Char} (hd : d.isDigit = true)
    (hf : f.isDigit = true) : FloatChars [d, '.', f] :=
  ⟨[], [d], [f], Or.inl rfl, by simpa using hd, by simp, by simpa using hf, rfl⟩

theorem findall_atom_end {a : Char} {x y z : List Char}
    (ha : isWordChar a = true) (hx : FloatChars x) (hy : FloatChars y)
    (hz : FloatChars z) :
    findall (a :: ' ' :: (x ++ ' ' :: (y ++ ' ' :: z)))
      = [(⟨[a]⟩, ⟨x⟩, ⟨y⟩, ⟨z⟩)] := by
  have h := findall_atom (r := []) ha hx hy hz (by simp)
  simpa using h

/-- C1 (amended): for geometries whose symbols are single word
characters and whose coordinates are fixed-point decimal literals,
`from_xyz ∘ to_xyz` recovers the atom list exactly (associated claim:
same atom count, symbols and coordinates; exact recovery implies any
floating-point tolerance), the parse leaves the charge unset, and
re-applying the charge recovers the geometry. -/
theorem claim_C1_roundtrip (es : List Element) (c : Option Int)
    (h : ∀ e ∈ es, GoodElement e) :
    (Geometry.from_xyz (Geometry.to_xyz ⟨es, c⟩)).elems = es ∧
    (Geometry.from_xyz (Geometry.to_xyz ⟨es, c⟩)).charge = none ∧
    (Geometry.from_xyz (Geometry.to_xyz ⟨es, c⟩)).withCharge c = ⟨es, c⟩ := by
  have hf := findall_toXyz es c h
  have helems : (Geometry.from_xyz (Geometry.to_xyz ⟨es, c⟩)).elems = es := by
    show (findall (Geometry.to_xyz ⟨es, c⟩).data).map Element.from_tuple = es
    rw [hf, List.map_map]
    have : (Element.from_tuple ∘ fun e => (e.name, e.x, e.y, e.z))
        = fun e : Element => e := rfl
    rw [this]
    simp
  exact ⟨helems, rfl, by
    show Geometry.withCharge _ c = _
    unfold Geometry.withCharge
    rw [helems]⟩

/-- C1 witness: a concrete well-formed geometry round-trips. -/
theorem claim_C1_roundtrip_witness :
    (∀ e ∈ [Element.mk "H" "0.0" "0.0" "0.0"], GoodElement e) ∧
    (Geometry.from_xyz
        (Geometry.to_xyz ⟨[Element.mk "H" "0.0" "0.0" "0.0"], some 0⟩)).withCharge (some 0)
      = ⟨[Element.mk "H" "0.0" "0.0" "0.0"], some 0⟩ := by
  have hgood : ∀ e ∈ [Element.mk "H" "0.0" "0.0" "0.0"], GoodElement e := by
    intro e he
    simp at he
    subst he
    exact ⟨⟨'H', by decide, rfl⟩,
      floatChars_simple (by decide) (by decide),
      floatChars_simple (by decide) (by decide),
      floatChars_simple (by decide) (by decide)⟩
  exact ⟨hgood, (claim_C1_roundtrip [⟨"H", "0.0", "0.0", "0.0"⟩] (some 0) hgood).2.2⟩

/-- C1 counterexample: the claim as stated fails for a geometry with a
two-character symbol — `Na` with exactly representable coordinates is
parsed back with symbol `a`, so the round trip does not preserve the
symbols. -/
theorem claim_C1_counterexample :
    ((Geometry.from_xyz
          (Geometry.to_xyz ⟨[Element.mk "Na" "0.0" "0.0" "0.0"], some 0⟩)).withCharge
        (some 0)).elems.map Element.name
      ≠ (Geometry.mk [Element.mk "Na" "0.0" "0.0" "0.0"] (some 0)).elems.map Element.name := by
  decide

/-- C5: lines with a missing coordinate (`C 1.0`) or with integer
coordinates lacking a decimal point (`C 1 2 3`) match zero atoms —
alone or inside a document, where well-formed lines still parse. -/
theorem claim_C5_selectivity :
    (Geometry.from_xyz "C 1.0").elems = [] ∧
    (Geometry.from_xyz "C 1 2 3").elems = [] ∧
    (Geometry.from_xyz "3\ncomment\nC 1.0\nC 1 2 3\nO 1.0 2.0 3.5\n").elems
      = [⟨"O", "1.0", "2.0", "3.5"⟩] := by
  decide

/-- C7 counterexample: the spec's expected string ends in a newline,
but `"\n".join` produces no trailing newline. -/
theorem claim_C7_counterexample :
    ((Geometry.from_xyz "2\ntitle\nH 0.0 0.0 0.0\nH 0.0 0.0 0.7414\n").withCharge
        (some 0)).to_xyz
      ≠ "2\ntitle\nH 0.0 0.0 0.0 \nH 0.0 0.0 0.7414 \n" := by
  decide

/-- C7 (amended): parsing the example, setting charge 0 and
re-serializing yields the expected text without a trailing newline
(and with no charge block). -/
theorem claim_C7_example :
    ((Geometry.from_xyz "2\ntitle\nH 0.0 0.0 0.0\nH 0.0 0.0 0.7414\n").withCharge
        (some 0)).to_xyz
      = "2\ntitle\nH 0.0 0.0 0.0 \nH 0.0 0.0 0.7414 " := by
  decide

/-- C8: `format_geometry` calls `el.to_xyz()` on `Element`, which has
no such method, so any nonempty geometry raises `AttributeError`
instead of returning the per-atom lines the spec promises. -/
theorem claim_C8_bug :
    format_geometry ⟨[Element.mk "H" "0.0" "0.0" "0.0"], none⟩
      = Except.error "AttributeError: Element object has no attribute to_xyz" := by
  rfl

/-- C10: a line `S x y z` whose symbol token `S` has length at least
two yields exactly one atom whose name is only the *last* character of
`S`. -/
theorem claim_C10_lastchar (pre : List Char) (a : Char) (x y z : String)
    (hpre : ∀ ch ∈ pre, isWordChar ch = true) (hprene : pre ≠ [])
    (ha : isWordChar a = true)
    (hx : FloatChars x.data) (hy : FloatChars y.data) (hz : FloatChars z.data) :
    (Geometry.from_xyz ((⟨pre ++ [a]⟩ : String) ++ " " ++ x ++ " " ++ y ++ " " ++ z)).elems
      = [⟨⟨[a]⟩, x, y, z⟩] := by
  have hdata : ((⟨pre ++ [a]⟩ : String) ++ " " ++ x ++ " " ++ y ++ " " ++ z).data
      = pre ++ (a :: ' ' :: (x.data ++ ' ' :: (y.data ++ ' ' :: z.data))) := by
    simp
  show (findall ((⟨pre ++ [a]⟩ : String) ++ " " ++ x ++ " " ++ y ++ " " ++ z).data).map
      Element.from_tuple = _
  rw [hdata]
  rw [findall_skip_run hpre (by
    simp only [List.head?_cons, ne_eq, Option.some.injEq]
    exact ne_space_of_isWordChar ha)]
  rw [findall_atom_end ha hx hy hz]
  rfl

/-- C10 witness: `Na 0.0 0.0 0.0` parses to a single atom named `a`. -/
theorem claim_C10_lastchar_witness :
    (Geometry.from_xyz "Na 0.0 0.0 0.0").elems
      = [⟨"a", "0.0", "0.0", "0.0"⟩] := by
  have h := claim_C10_lastchar ['N'] 'a' "0.0" "0.0" "0.0"
    (by decide) (by decide) (by decide)
    (floatChars_simple (by decide) (by decide))
    (floatChars_simple (by decide) (by decide))
    (floatChars_simple (by decide) (by decide))
  exact h

/-! ### Line splitting -/

theorem splitNL_ne_nil (l : List Char) : splitNL l ≠ [] := by
  cases l with
  | nil => simp [splitNL]
  | cons c r =>
    simp only [splitNL]
    split
    · simp
    · split <;> simp

theorem splitNL_cons_nl (r : List Char) : splitNL ('\n' :: r) = [] :: splitNL r := by
  simp [splitNL]

theorem splitNL_cons_ne {c : Char} {r h : List Char} {t : List (List Char)}
    (hc : c ≠ '\n') (hr : splitNL r = h :: t) :
    splitNL (c :: r) = (c :: h) :: t := by
  simp [splitNL, hc, hr]

theorem splitNL_no_nl {l : List Char} (h : '\n' ∉ l) : splitNL l = [l] := by
  induction l with
  | nil => rfl
  | cons c r ih =>
    have hc : c ≠ '\n' := fun e => h (by simp [e])
    exact splitNL_cons_ne hc (ih fun hm => h (by simp [hm]))

theorem splitNL_append_nl {A : List Char} (B : List Char) (h : '\n' ∉ A) :
    splitNL (A ++ '\n' :: B) = A :: splitNL B := by
  induction A with
  | nil => exact splitNL_cons_nl B
  | cons c A ih =>
    have hc : c ≠ '\n' := fun e => h (by simp [e])
    have ihr := ih fun hm => h (by simp [hm])
    exact splitNL_cons_ne hc ihr

theorem pyLines_joinNL {ls : List String} (hne : ls ≠ [])
    (h : ∀ l ∈ ls, '\n' ∉ l.data) : pyLines (joinNL ls) = ls := by
  induction ls with
  | nil => exact absurd rfl hne
  | cons a r ih =>
    cases r with
    | nil =>
      show pyLines a = [a]
      unfold pyLines
      rw [splitNL_no_nl (h a (by simp))]
      rfl
    | cons b t =>
      have hdata : (joinNL (a :: b :: t)).data
          = a.data ++ '\n' :: (joinNL (b :: t)).data := by
        show (a ++ "\n" ++ joinNL (b :: t)).data = _
        simp
      unfold pyLines
      rw [hdata, splitNL_append_nl _ (h a (by simp))]
      show a :: pyLines (joinNL (b :: t)) = a :: b :: t
      rw [ih (by simp) fun l hl => h l (by simp [hl])]

/-! ### Infix facts for line lists -/

theorem isPrefixOfB_refl (l : List String) : isPrefixOfB l l = true := by
  induction l with
  | nil => rfl
  | cons a r ih => simp [isPrefixOfB, ih]

theorem isInfixOfB_append (p pre : List String) :
    isInfixOfB p (pre ++ p) = true := by
  induction pre with
  | nil =>
    show isInfixOfB p p = true
    cases p with
    | nil => rfl
    | cons a r =>
      unfold isInfixOfB
      rw [isPrefixOfB_refl]
      rfl
  | cons a pre ih =>
    show isInfixOfB p (a :: (pre ++ p)) = true
    unfold isInfixOfB
    show (isPrefixOfB p (a :: (pre ++ p)) || isInfixOfB p (pre ++ p)) = true
    rw [ih]
    simp

theorem mem_of_isInfixOfB {a : String} {p l : List String}
    (h : isInfixOfB (a :: p) l = true) : a ∈ l := by
  induction l with
  | nil =>
    unfold isInfixOfB isPrefixOfB at h
    simp at h
  | cons b t ih =>
    unfold isInfixOfB at h
    have h2 : (isPrefixOfB (a :: p) (b :: t) || isInfixOfB (a :: p) t) = true := h
    rcases Bool.or_eq_true_iff.mp h2 with h1 | h1
    · unfold isPrefixOfB at h1
      have := Bool.and_eq_true_iff.mp h1
      have hab : a = b := by simpa using this.1
      simp [hab]
    · exact List.mem_cons_of_mem b (ih h1)

theorem pyNeZero_iff {c : Option Int} : pyNeZero c = true ↔ c ≠ some 0 := by
  cases c with
  | none => simp [pyNeZero]
  | some i => simp [pyNeZero, bne_iff_ne]

/-! ### Newline-freeness of serialized parts -/

theorem natRepr_no_nl (n : Nat) : '\n' ∉ (Nat.repr n).data := by
  intro hm
  have := natRepr_digits n '\n' hm
  simp [Char.isDigit] at this

theorem intRepr_no_nl (i : Int) : '\n' ∉ (toString i).data := by
  obtain ⟨sgn, ds, hsgn, _, hds, hrepr⟩ := intRepr_shape i
  rw [hrepr]
  intro hm
  rcases List.mem_append.mp hm with h1 | h1
  · rcases hsgn with rfl | rfl
    · simp at h1
    · simp at h1
  · have := hds _ h1
    simp [Char.isDigit] at this

theorem floatChars_no_nl {l : List Char} (h : FloatChars l) : '\n' ∉ l := by
  obtain ⟨sgn, ds, fs, hsgn, hds, _, hfs, rfl⟩ := h
  intro hm
  rcases List.mem_append.mp hm with h1 | h1
  · rcases List.mem_append.mp h1 with h2 | h2
    · rcases hsgn with rfl | rfl | rfl <;> simp at h2
    · have := hds _ h2
      simp [Char.isDigit] at this
  · rcases List.mem_cons.mp h1 with h2 | h2
    · exact absurd h2 (by decide)
    · have := hfs _ h2
      simp [Char.isDigit] at this

theorem pyStr_no_nl (c : Option Int) : '\n' ∉ (pyStr c).data := by
  cases c with
  | none => decide
  | some i => exact intRepr_no_nl i

/-- The character-level shape of a good element's serialized line. -/
theorem atomLine_data {e : Element} (he : GoodElement e) :
    ∃ a, isWordChar a = true ∧
      (atomLine e).data
        = a :: ' ' :: (e.x.data ++ ' ' :: (e.y.data ++ ' ' :: (e.z.data ++ [' ']))) := by
  obtain ⟨⟨a, ha, hname⟩, _, _, _⟩ := he
  refine ⟨a, ha, ?_⟩
  show (element_to_xyz e.name e.x e.y e.z ++ " ").data = _
  rw [hname]
  show ((⟨[a]⟩ : String) ++ " " ++ e.x ++ " " ++ e.y ++ " " ++ e.z ++ " ").data = _
  simp

theorem atomLine_no_nl {e : Element} (he : GoodElement e) :
    '\n' ∉ (atomLine e).data := by
  obtain ⟨a, ha, hdata⟩ := atomLine_data he
  obtain ⟨_, hx, hy, hz⟩ := he
  rw [hdata]
  intro hm
  rcases List.mem_cons.mp hm with h1 | h1
  · exact ne_nl_of_isWordChar ha h1.symm
  rcases List.mem_cons.mp h1 with h2 | h2
  · exact absurd h2 (by decide)
  rcases List.mem_append.mp h2 with h3 | h3
  · exact floatChars_no_nl hx h3
  rcases List.mem_cons.mp h3 with h4 | h4
  · exact absurd h4 (by decide)
  rcases List.mem_append.mp h4 with h5 | h5
  · exact floatChars_no_nl hy h5
  rcases List.mem_cons.mp h5 with h6 | h6
  · exact absurd h6 (by decide)
  rcases List.mem_append.mp h6 with h7 | h7
  · exact floatChars_no_nl hz h7
  · simp at h7

/-- Serialization as the join of its line list. -/
theorem toXyz_lines (es : List Element) (c : Option Int) :
    Geometry.to_xyz ⟨es, c⟩
      = joinNL (toString es.length :: "title"
          :: (es.map atomLine ++ if pyNeZero c then chargeBlockLines c else [])) := by
  show coordinates_to_xyz es.length c (Geometry.coordinates ⟨es, c⟩) = _
  unfold coordinates_to_xyz
  have hcoords :
      (Geometry.coordinates ⟨es, c⟩).map
          (fun v => element_to_xyz v.1 v.2.1 v.2.2.1 v.2.2.2 ++ " ")
        = es.map atomLine := by
    show (es.map fun e => (e.name, e.x, e.y, e.z)).map _ = _
    rw [List.map_map]
    rfl
  rw [hcoords]
  rfl

/-- The lines of `to_xyz` output of a well-formed geometry are exactly
the line list that built it. -/
theorem pyLines_toXyz (es : List Element) (c : Option Int)
    (h : ∀ e ∈ es, GoodElement e) :
    pyLines (Geometry.to_xyz ⟨es, c⟩)
      = toString es.length :: "title"
          :: (es.map atomLine ++ if pyNeZero c then chargeBlockLines c else []) := by
  rw [toXyz_lines]
  apply pyLines_joinNL (by simp)
  intro l hl
  rcases List.mem_cons.mp hl with rfl | hl
  · exact natRepr_no_nl es.length
  rcases List.mem_cons.mp hl with rfl | hl
  · decide
  rcases List.mem_append.mp hl with h1 | h1
  · obtain ⟨e, he, rfl⟩ := List.mem_map.mp h1
    exact atomLine_no_nl (h e he)
  · split at h1
    · unfold chargeBlockLines at h1
      rcases List.mem_cons.mp h1 with rfl | h2
      · decide
      rcases List.mem_cons.mp h2 with rfl | h3
      · show '\n' ∉ ("chrg " ++ pyStr c).data
        simp only [String.data_append]
        intro hm
        rcases List.mem_append.mp hm with h4 | h4
        · exact absurd h4 (by decide)
        · exact pyStr_no_nl c h4
      rcases List.mem_cons.mp h3 with rfl | h4
      · decide
      · simp at h4
    · simp at h1

/-- A concrete well-formed element shared by the witnesses. -/
theorem goodElement_H : GoodElement ⟨"H", "0.0", "0.0", "0.0"⟩ :=
  ⟨⟨'H', by decide, rfl⟩,
    floatChars_simple (by decide) (by decide),
    floatChars_simple (by decide) (by decide),
    floatChars_simple (by decide) (by decide)⟩

/-- C2 (amended): for well-formed geometries the charge block is
present in the `to_xyz` output iff the charge is *not* the integer 0;
in particular an unset (`None`) charge — which Python's `charge != 0`
treats as truthy — also produces the block (with the line
`chrg None`), and the block is absent exactly when `charge == 0`. -/
theorem claim_C2_blockPresence (es : List Element) (c : Option Int)
    (h : ∀ e ∈ es, GoodElement e) :
    chargeBlockPresent ⟨es, c⟩ = true ↔ c ≠ some 0 := by
  unfold chargeBlockPresent
  rw [pyLines_toXyz es c h]
  constructor
  · intro hb
    intro hc0
    subst hc0
    have hz : pyNeZero (some 0) = false := rfl
    rw [hz] at hb
    simp only [if_neg (by simp : ¬false = true), List.append_nil] at hb
    have hmem : ("$set" : String) ∈
        toString es.length :: "title" :: es.map atomLine :=
      mem_of_isInfixOfB hb
    rcases List.mem_cons.mp hmem with heq | hmem
    · have hd : '$' ∈ (toString es.length).data := by
        rw [← heq]
        decide
      have := natRepr_digits es.length '$' hd
      simp [Char.isDigit] at this
    rcases List.mem_cons.mp hmem with heq | hmem
    · exact absurd heq (by decide)
    · obtain ⟨e, he, heq⟩ := List.mem_map.mp hmem
      obtain ⟨a, ha, hdata⟩ := atomLine_data (h e he)
      have : (atomLine e).data = "$set".data := by rw [heq]
      rw [hdata] at this
      have h3 : ' ' :: (e.x.data ++ ' ' :: (e.y.data ++ ' ' :: (e.z.data ++ [' '])))
          = ['s', 'e', 't'] := by
        injection this
      injection h3 with h4 _
      exact absurd h4 (by decide)
  · intro hc
    have ht : pyNeZero c = true := pyNeZero_iff.mpr hc
    rw [if_pos ht]
    rw [show toString es.length :: "title" :: (es.map atomLine ++ chargeBlockLines c)
        = (toString es.length :: "title" :: es.map atomLine) ++ chargeBlockLines c by simp]
    exact isInfixOfB_append _ _

/-- C2 witness: a nonzero charge produces the block on a concrete
well-formed geometry. -/
theorem claim_C2_blockPresence_witness :
    (∀ e ∈ [Element.mk "H" "0.0" "0.0" "0.0"], GoodElement e) ∧
    (chargeBlockPresent ⟨[Element.mk "H" "0.0" "0.0" "0.0"], some 1⟩ = true
      ↔ (some 1 : Option Int) ≠ some 0) := by
  have hgood : ∀ e ∈ [Element.mk "H" "0.0" "0.0" "0.0"], GoodElement e := by
    intro e he
    simp at he
    subst he
    exact goodElement_H
  exact ⟨hgood, claim_C2_blockPresence [⟨"H", "0.0", "0.0", "0.0"⟩] (some 1) hgood⟩

/-- C2 counterexample: with the charge left unset (`None`) — which the
claim says is treated as zero with the block omitted — the code emits
the block, containing the line `chrg None`. -/
theorem claim_C2_counterexample :
    (Geometry.mk [] none).charge = none ∧
    chargeBlockPresent ⟨[], none⟩ = true ∧
    Geometry.to_xyz ⟨[], none⟩ = "0\ntitle\n$set\nchrg None\n$end" := by
  decide

/-! ### Membership of lines through a join -/

theorem splitNL_tail_mem {x : List Char} :
    ∀ (A D : List Char), x ∈ splitNL D →
      x ∈ (splitNL (A ++ '\n' :: D)).tail := by
  intro A
  induction A with
  | nil =>
    intro D hx
    rw [List.nil_append, splitNL_cons_nl]
    simpa using hx
  | cons c A ih =>
    intro D hx
    by_cases hc : c = '\n'
    · subst hc
      rw [List.cons_append, splitNL_cons_nl]
      simp only [List.tail_cons]
      exact List.mem_of_mem_tail (ih D hx)
    · rw [List.cons_append]
      obtain ⟨h, t, hht⟩ : ∃ h t, splitNL (A ++ '\n' :: D) = h :: t := by
        rcases hsp : splitNL (A ++ '\n' :: D) with _ | ⟨h, t⟩
        · exact absurd hsp (splitNL_ne_nil _)
        · exact ⟨h, t, rfl⟩
      rw [splitNL_cons_ne hc hht]
      have hm := ih D hx
      rw [hht] at hm
      simpa using hm

/-- A newline-free member of the joined list survives as a whole line
of the join. -/
theorem mem_pyLines_joinNL {s : String} {ls : List String} (hmem : s ∈ ls)
    (hnl : '\n' ∉ s.data) : s ∈ pyLines (joinNL ls) := by
  induction ls with
  | nil => simp at hmem
  | cons a r ih =>
    rcases List.mem_cons.mp hmem with rfl | hmem'
    · cases r with
      | nil =>
        show s ∈ pyLines s
        unfold pyLines
        rw [splitNL_no_nl hnl]
        simp
      | cons b t =>
        have hdata : (joinNL (s :: b :: t)).data
            = s.data ++ '\n' :: (joinNL (b :: t)).data := by
          show (s ++ "\n" ++ joinNL (b :: t)).data = _
          simp
        unfold pyLines
        rw [hdata, splitNL_append_nl _ hnl]
        simp
    · cases r with
      | nil => simp at hmem'
      | cons b t =>
        have hdata : (joinNL (a :: b :: t)).data
            = a.data ++ '\n' :: (joinNL (b :: t)).data := by
          show (a ++ "\n" ++ joinNL (b :: t)).data = _
          simp
        have hrec := ih hmem'
        unfold pyLines at hrec ⊢
        rw [hdata]
        obtain ⟨xl, hxl, hxs⟩ := List.mem_map.mp hrec
        have := splitNL_tail_mem a.data ((joinNL (b :: t)).data) hxl
        exact List.mem_map.mpr ⟨xl, List.mem_of_mem_tail this, hxs⟩

/-! ### NWChem deck facts -/

theorem qela_mem (p : NWParams) (e : Int) :
    ("set tce:qela " ++ toString (Int.fdiv e 2)) ∈ pyLines (renderDeck p e) := by
  unfold renderDeck
  apply mem_pyLines_joinNL
  · simp [NW_CHEM_TEMPLATE]
  · show '\n' ∉ ("set tce:qela " ++ toString (Int.fdiv e 2)).data
    simp only [String.data_append]
    intro hm
    rcases List.mem_append.mp hm with h1 | h1
    · exact absurd h1 (by decide)
    · exact intRepr_no_nl _ h1

theorem qelb_mem (p : NWParams) (e : Int) :
    ("set tce:qelb " ++ toString (Int.fdiv e 2)) ∈ pyLines (renderDeck p e) := by
  unfold renderDeck
  apply mem_pyLines_joinNL
  · simp [NW_CHEM_TEMPLATE]
  · show '\n' ∉ ("set tce:qelb " ++ toString (Int.fdiv e 2)).data
    simp only [String.data_append]
    intro hm
    rcases List.mem_append.mp hm with h1 | h1
    · exact absurd h1 (by decide)
    · exact intRepr_no_nl _ h1

/-- C3: with neither a molecule handle nor an explicit electron count,
`create_input_deck` raises the configuration `ValueError` and produces
no deck text. -/
theorem claim_C3_missingSource (p : NWParams) (h1 : p.mol = none)
    (h2 : p.num_active_el = none) :
    create_input_deck p
      = Except.error
          "Cannot proceed: please provide either a Mol object or specify number of electrons" := by
  unfold create_input_deck
  rw [h1, h2]
  rfl

/-- C3 witness. -/
theorem claim_C3_missingSource_witness :
    (testParams none none).mol = none ∧
    (testParams none none).num_active_el = none ∧
    create_input_deck (testParams none none)
      = Except.error
          "Cannot proceed: please provide either a Mol object or specify number of electrons" :=
  ⟨rfl, rfl, claim_C3_missingSource (testParams none none) rfl rfl⟩

/-- C4: with both a molecule handle (electron count `N`) and an
explicit `num_active_el = M`, `M ≠ N`, the call succeeds, the
`qela`/`qelb` lines are derived from `M`, and exactly the
ignoring-mol warning is emitted. -/
theorem claim_C4_precedence (p : NWParams) (N M : Int) (hmol : p.mol = some N)
    (hel : p.num_active_el = some M) (hMN : M ≠ N) :
    ∃ deck,
      create_input_deck p
        = Except.ok (deck,
            ["Ignoring mol and using specified number of active electrons (num_active_el) instead."]) ∧
      ("set tce:qela " ++ toString (Int.fdiv M 2)) ∈ pyLines deck ∧
      ("set tce:qelb " ++ toString (Int.fdiv M 2)) ∈ pyLines deck := by
  refine ⟨renderDeck p M, ?_, qela_mem p M, qelb_mem p M⟩
  unfold create_input_deck
  rw [hmol, hel]
  rfl

/-- C4 witness: electron counts 4 (mol) versus 3 (explicit). -/
theorem claim_C4_precedence_witness :
    (testParams (some 4) (some 3)).mol = some 4 ∧
    (testParams (some 4) (some 3)).num_active_el = some 3 ∧
    (3 : Int) ≠ 4 ∧
    (∃ deck,
      create_input_deck (testParams (some 4) (some 3))
        = Except.ok (deck,
            ["Ignoring mol and using specified number of active electrons (num_active_el) instead."]) ∧
      ("set tce:qela " ++ toString (Int.fdiv 3 2)) ∈ pyLines deck ∧
      ("set tce:qelb " ++ toString (Int.fdiv 3 2)) ∈ pyLines deck) :=
  ⟨rfl, rfl, by decide,
    claim_C4_precedence (testParams (some 4) (some 3)) 4 3 rfl rfl (by decide)⟩

/-- C6: for every successful deck generation with resolved electron
count `E`, both the `qela` and the `qelb` line render `E // 2`, which
is `⌊E / 2⌋` — odd counts truncate and are not rejected. -/
theorem claim_C6_halving (p : NWParams) (E : Int) (ws : List String)
    (h : resolve_num_active_el p.mol p.num_active_el = Except.ok (E, ws)) :
    ∃ deck, create_input_deck p = Except.ok (deck, ws) ∧
      ("set tce:qela " ++ toString (Int.fdiv E 2)) ∈ pyLines deck ∧
      ("set tce:qelb " ++ toString (Int.fdiv E 2)) ∈ pyLines deck ∧
      Int.fdiv E 2 = ⌊(E : ℚ) / 2⌋ := by
  refine ⟨renderDeck p E, ?_, qela_mem p E, qelb_mem p E, ?_⟩
  · unfold create_input_deck
    rw [h]
  · rw [Int.fdiv_eq_ediv _ (by norm_num)]
    rw [show ((E : ℚ) / 2) = ((E : ℚ) / ((2 : ℕ) : ℚ)) by norm_num]
    rw [Rat.floor_intCast_div_natCast E 2]
    rfl

/-- C6 witness: an odd explicit count (5) truncates to 2. -/
theorem claim_C6_halving_witness :
    resolve_num_active_el (testParams none (some 5)).mol
        (testParams none (some 5)).num_active_el
      = Except.ok (5,
          ["Ignoring mol and using specified number of active electrons (num_active_el) instead."]) ∧
    (∃ deck,
      create_input_deck (testParams none (some 5))
        = Except.ok (deck,
            ["Ignoring mol and using specified number of active electrons (num_active_el) instead."]) ∧
      ("set tce:qela " ++ toString (Int.fdiv 5 2)) ∈ pyLines deck ∧
      ("set tce:qelb " ++ toString (Int.fdiv 5 2)) ∈ pyLines deck ∧
      Int.fdiv 5 2 = ⌊((5 : Int) : ℚ) / 2⌋) :=
  ⟨rfl, claim_C6_halving (testParams none (some 5)) 5 _ rfl⟩

/-- The first non-blank line of `"" + "\n" + L + …` is `L` when `L` is
newline-free and non-blank. -/
theorem firstNonBlank_join_startline (L : String) (rest : List String)
    (hLnl : '\n' ∉ L.data) (hLnb : isBlankLine L = false) :
    firstNonBlankLine (joinNL ("" :: L :: rest)) = some L := by
  have hpred0 : ¬((!isBlankLine "") = true) := by decide
  have hpredL : (!isBlankLine L) = true := by rw [hLnb]; rfl
  have hdata : (joinNL ("" :: L :: rest)).data
      = '\n' :: (L.data ++ (joinTail rest).data) := by
    show ("" ++ "\n" ++ joinNL (L :: rest)).data = _
    rw [joinNL_cons_joinTail]
    simp
  unfold firstNonBlankLine pyLines
  rw [hdata]
  have e0 : (!isBlankLine ("" : String)) = false := rfl
  rcases joinTail_head rest with h0 | ⟨t, ht⟩
  · rw [h0, List.append_nil, splitNL_cons_nl, splitNL_no_nl hLnl]
    show List.find? (fun l => !isBlankLine l) ("" :: L :: []) = some L
    simp [List.find?, e0, hpredL]
  · rw [ht, splitNL_cons_nl, splitNL_append_nl _ hLnl]
    show List.find? (fun l => !isBlankLine l)
        ("" :: L :: (splitNL t).map fun l => (⟨l⟩ : String)) = some L
    simp [List.find?, e0, hpredL]

/-- C9: the `start` directive of every successfully generated deck
appends the literal `_test` to the supplied molecule name, so the
directive never names the molecule exactly as given. -/
theorem claim_C9_startSuffix (p : NWParams) (deck : String) (ws : List String)
    (hnl : '\n' ∉ p.mol_name.data)
    (h : create_input_deck p = Except.ok (deck, ws)) :
    firstNonBlankLine deck = some ("start " ++ p.mol_name ++ "_test") ∧
    "start " ++ p.mol_name ++ "_test" ≠ "start " ++ p.mol_name := by
  constructor
  · unfold create_input_deck at h
    cases hres : resolve_num_active_el p.mol p.num_active_el with
    | error msg =>
      rw [hres] at h
      cases h
    | ok pr =>
      rw [hres] at h
      obtain ⟨e', ws'⟩ := pr
      have hdeck : renderDeck p e' = deck := by
        have h2 : Except.ok (renderDeck p e', ws')
            = (Except.ok (deck, ws) : Except String (String × List String)) := h
        have h3 := Except.ok.inj h2
        exact congrArg Prod.fst h3
      rw [← hdeck]
      have hLnl : '\n' ∉ ("start " ++ (p.mol_name ++ "_test")).data := by
        simp only [String.data_append]
        intro hm
        rcases List.mem_append.mp hm with h1 | h1
        · exact absurd h1 (by decide)
        rcases List.mem_append.mp h1 with h2 | h2
        · exact hnl h2
        · exact absurd h2 (by decide)
      have hLnb : isBlankLine ("start " ++ (p.mol_name ++ "_test")) = false := by
        unfold isBlankLine
        simp only [String.data_append]
        show (('s' :: 't' :: 'a' :: 'r' :: 't' :: ' ' :: [])
            ++ (p.mol_name.data ++ "_test".data)).all Char.isWhitespace = false
        simp [Char.isWhitespace]
      have hfw : firstNonBlankLine (renderDeck p e')
          = some ("start " ++ (p.mol_name ++ "_test")) := by
        unfold renderDeck NW_CHEM_TEMPLATE
        exact firstNonBlank_join_startline _ _ hLnl hLnb
      rw [hfw, strApp_assoc]
  · intro heq
    have hlen := congrArg (fun s => s.data.length) heq
    simp at hlen

/-- C9 witness: molecule name `water` yields first non-blank line
`start water_test`. -/
theorem claim_C9_startSuffix_witness :
    ('\n' ∉ (testParams (some 4) none).mol_name.data) ∧
    create_input_deck (testParams (some 4) none)
      = Except.ok (renderDeck (testParams (some 4) none) 4, []) ∧
    (firstNonBlankLine (renderDeck (testParams (some 4) none) 4)
        = some ("start " ++ (testParams (some 4) none).mol_name ++ "_test") ∧
      "start " ++ (testParams (some 4) none).mol_name ++ "_test"
        ≠ "start " ++ (testParams (some 4) none).mol_name) :=
  ⟨by decide, rfl,
    claim_C9_startSuffix (testParams (some 4) none)
      (renderDeck (testParams (some 4) none) 4) [] (by decide) rfl⟩
